import Mathlib

/-!
# Verification of `interval_map` (src/interval_map.h)

A shallow embedding of the C++ class `interval_map<K, V>`: a default value
`m_valBegin` together with an ordered boundary table `m_map`
(a `std::map<K, V>`), here modelled as an association list kept sorted by
key in strictly ascending order.  Iterators of `std::map` are modelled as
positions (indices) into that sorted list:
`m_map.begin()` is position `0`, `m_map.end()` is position `l.length`,
`upper_bound`, the backwards iterator walk of `assign`, `erase(first, last)`
and hinted `insert` are translated operation by operation.
-/

set_option linter.unusedSectionVars false

namespace IntervalMapModel

/-- The `interval_map` class: the default value `m_valBegin` (the value of all
keys below the first boundary) and the boundary table `m_map`. -/
structure interval_map (K V : Type) where
  m_valBegin : V
  m_map : List (K × V)

/-- The constructor `interval_map(V_forward&& val)`: store the default value,
the boundary table starts empty. -/
def mkIntervalMap {K V : Type} (val : V) : interval_map K V :=
  ⟨val, []⟩

variable {K V : Type} [LinearOrder K] [DecidableEq V]

/-- `m_map.upper_bound k` on the sorted representation: the position of the
first entry whose key is strictly greater than `k` (`l.length` if none). -/
def upperBound : List (K × V) → K → Nat
  | [], _ => 0
  | p :: rest, k => if k < p.1 then 0 else upperBound rest k + 1

/-- The value stored at position `i` of the table (`it->second`); the default
`dflt` is returned for an out-of-range position, which the translated code
never dereferences on reachable states. -/
def valueAt (l : List (K × V)) (i : Nat) (dflt : V) : V :=
  match l[i]? with
  | some p => p.2
  | none => dflt

/-- Whether the key stored at position `i` (`it->first`) is strictly below
`k`; `false` for an out-of-range position. -/
def keyLtAt (l : List (K × V)) (i : Nat) (k : K) : Bool :=
  match l[i]? with
  | some p => decide (p.1 < k)
  | none => false

/-- The backward walk of `assign`:
`while (keyBegin < itStart->first && itStart != m_map.begin()) itStart--;`
starting from position `i`. -/
def walkBack (l : List (K × V)) (keyBegin : K) : Nat → Nat
  | 0 => 0
  | i + 1 =>
    match l[i + 1]? with
    | some p => if keyBegin < p.1 then walkBack l keyBegin i else i + 1
    | none => i + 1

/-- `std::map::insert` (hinted or not): insert the pair at its sorted
position, keeping the existing entry if the key is already present. -/
def mapInsert (l : List (K × V)) (q : K × V) : List (K × V) :=
  match l with
  | [] => [q]
  | p :: rest =>
    if q.1 < p.1 then q :: p :: rest
    else if p.1 < q.1 then p :: mapInsert rest q
    else p :: rest

/-- `interval_map::assign(keyBegin, keyEnd, val)`, translated statement by
statement from src/interval_map.h lines 28-75. -/
def assign (m : interval_map K V) (keyBegin keyEnd : K) (val : V) :
    interval_map K V :=
  if ¬ (keyBegin < keyEnd) then m
  else if m.m_map.isEmpty then
    let inserted := mapInsert (mapInsert m.m_map (keyBegin, val)) (keyEnd, m.m_valBegin)
    { m with m_map := inserted }
  else
    let itEnd := upperBound m.m_map keyEnd
    let valEnd := if itEnd ≠ 0 then valueAt m.m_map (itEnd - 1) m.m_valBegin
      else m.m_valBegin
    let itStart0 := if itEnd ≠ 0 then itEnd - 1 else itEnd
    let itStart1 := walkBack m.m_map keyBegin itStart0
    let itStart := if keyLtAt m.m_map itStart1 keyBegin ∧ itStart1 ≠ itEnd
      then itStart1 + 1 else itStart1
    let differsFromPreviousValue :=
      ¬ (itStart ≠ 0 ∧ valueAt m.m_map (itStart - 1) m.m_valBegin = val)
    let differsFromDefault := ¬ (itStart = 0 ∧ val = m.m_valBegin)
    let erased := m.m_map.take itStart ++ m.m_map.drop itEnd
    let withBegin :=
      if differsFromPreviousValue ∧ differsFromDefault
      then mapInsert erased (keyBegin, val) else erased
    let withEnd :=
      if ¬ (valEnd = val) then mapInsert withBegin (keyEnd, valEnd)
      else withBegin
    { m with m_map := withEnd }

/-- `interval_map::operator[]`: `upper_bound` on the key, stepped back one
position; the default value when that would step before the first entry. -/
def lookup (m : interval_map K V) (key : K) : V :=
  let it := upperBound m.m_map key
  if it = 0 then m.m_valBegin
  else valueAt m.m_map (it - 1) m.m_valBegin

/-- `operator[]` is a `const` member returning a value: as a state
transformer it yields the looked-up value and leaves the object unchanged. -/
def lookupState (m : interval_map K V) (key : K) : V × interval_map K V :=
  (lookup m key, m)

/-- Run a sequence of `assign` calls `(begin, end, value)` in order. -/
def applyOps (m : interval_map K V) (ops : List (K × K × V)) :
    interval_map K V :=
  ops.foldl (fun s op => assign s op.1 op.2.1 op.2.2) m

/-- The boundary table's keys are strictly ascending: the representation
invariant of `std::map` iteration order. -/
def SortedKeys (l : List (K × V)) : Prop :=
  l.Pairwise (fun p q => p.1 < q.1)

/-- The redundancy-free invariant claimed by the spec: consecutive stored
values differ, and the first stored value differs from the default. -/
def CanonicalMap (vb : V) (l : List (K × V)) : Prop :=
  (vb :: l.map Prod.snd).Chain' (fun a b => a ≠ b)

/-- Lookup as a fold over the sorted association list: the value of the last
entry whose key is `≤ k`, or `vb` when there is none.  Used as a proof-side
normal form for `lookup`. -/
def lookupL (vb : V) : List (K × V) → K → V
  | [], _ => vb
  | p :: rest, k => if k < p.1 then vb else lookupL p.2 rest k

/-- Position of the first entry whose key is `≥ k` (`std::map::lower_bound`
on the sorted representation); proof-side helper. -/
def lowerBound : List (K × V) → K → Nat
  | [], _ => 0
  | p :: rest, k => if p.1 < k then lowerBound rest k + 1 else 0

/-- The value stored at an exact boundary key, if that key is present. -/
def entryAt (l : List (K × V)) (k : K) : Option V :=
  (l.find? (fun p => decide (p.1 = k))).map Prod.snd

/-- The value that applies immediately below `b` once every boundary with
key `≥ b` is ignored: the value of the greatest stored boundary strictly
below `b`, or the default `vb` when no stored boundary precedes `b`. -/
def prevBelow (vb : V) (l : List (K × V)) (b : K) : V :=
  match (l.takeWhile (fun p => decide (p.1 < b))).getLast? with
  | some p => p.2
  | none => vb

/-- A trace of `assign` calls is safe when no call with a well-formed range
is issued while the table is empty with the default value itself. -/
def safeOps (m : interval_map K V) : List (K × K × V) → Bool
  | [] => true
  | (b, e, v) :: rest =>
    !(m.m_map.isEmpty && decide (b < e) && decide (v = m.m_valBegin)) &&
      safeOps (assign m b e v) rest

/-- The value of the last entry of `l`, or `vb` when `l` is empty. -/
def lastVal (vb : V) (l : List (K × V)) : V :=
  match l.getLast? with
  | some p => p.2
  | none => vb

/-! ### Position bounds for `upperBound` and `lowerBound` -/

theorem upperBound_le_length (l : List (K × V)) (k : K) :
    upperBound l k ≤ l.length := by
  induction l with
  | nil => simp [upperBound]
  | cons p rest ih =>
    simp only [upperBound, List.length_cons]
    split
    · exact Nat.zero_le _
    · exact Nat.succ_le_succ ih

theorem lowerBound_le_length (l : List (K × V)) (k : K) :
    lowerBound l k ≤ l.length := by
  induction l with
  | nil => simp [lowerBound]
  | cons p rest ih =>
    simp only [lowerBound, List.length_cons]
    split
    · exact Nat.succ_le_succ ih
    · exact Nat.zero_le _

theorem mem_take_upperBound {l : List (K × V)} {k : K} {p : K × V}
    (hp : p ∈ l.take (upperBound l k)) : p.1 ≤ k := by
  induction l with
  | nil => simp [upperBound] at hp
  | cons q rest ih =>
    by_cases h : k < q.1
    · simp [upperBound, h] at hp
    · simp only [upperBound, if_neg h, List.take_succ_cons, List.mem_cons] at hp
      rcases hp with rfl | hp
      · exact le_of_not_lt h
      · exact ih hp

theorem mem_drop_upperBound {l : List (K × V)} {k : K} (hs : SortedKeys l)
    {p : K × V} (hp : p ∈ l.drop (upperBound l k)) : k < p.1 := by
  induction l with
  | nil => simp [upperBound] at hp
  | cons q rest ih =>
    rw [SortedKeys, List.pairwise_cons] at hs
    by_cases h : k < q.1
    · simp only [upperBound, if_pos h, List.drop_zero] at hp
      rcases List.mem_cons.mp hp with rfl | hp
      · exact h
      · exact h.trans (hs.1 _ hp)
    · simp only [upperBound, if_neg h, List.drop_succ_cons] at hp
      exact ih hs.2 hp

theorem mem_take_lowerBound {l : List (K × V)} {k : K} {p : K × V}
    (hp : p ∈ l.take (lowerBound l k)) : p.1 < k := by
  induction l with
  | nil => simp [lowerBound] at hp
  | cons q rest ih =>
    by_cases h : q.1 < k
    · simp only [lowerBound, if_pos h, List.take_succ_cons, List.mem_cons] at hp
      rcases hp with rfl | hp
      · exact h
      · exact ih hp
    · simp [lowerBound, h] at hp

theorem mem_drop_lowerBound {l : List (K × V)} {k : K} (hs : SortedKeys l)
    {p : K × V} (hp : p ∈ l.drop (lowerBound l k)) : k ≤ p.1 := by
  induction l with
  | nil => simp [lowerBound] at hp
  | cons q rest ih =>
    rw [SortedKeys, List.pairwise_cons] at hs
    by_cases h : q.1 < k
    · simp only [lowerBound, if_pos h, List.drop_succ_cons] at hp
      exact ih hs.2 hp
    · simp only [lowerBound, if_neg h, List.drop_zero] at hp
      rcases List.mem_cons.mp hp with rfl | hp
      · exact le_of_not_lt h
      · exact (le_of_not_lt h).trans (le_of_lt (hs.1 _ hp))

theorem getElem?_lt_lowerBound {l : List (K × V)} {b : K} {i : Nat}
    (h : i < lowerBound l b) {p : K × V} (hp : l[i]? = some p) : p.1 < b := by
  apply mem_take_lowerBound (l := l) (k := b)
  exact List.getElem?_mem (by rwa [List.getElem?_take_of_lt h])

theorem getElem?_ge_lowerBound {l : List (K × V)} {b : K} {i : Nat}
    (hs : SortedKeys l) (h : lowerBound l b ≤ i) {p : K × V}
    (hp : l[i]? = some p) : b ≤ p.1 := by
  apply mem_drop_lowerBound hs (k := b)
  apply List.getElem?_mem (n := i - lowerBound l b)
  rw [List.getElem?_drop]
  rwa [Nat.add_sub_cancel' h]

theorem getElem?_le_upperBound {l : List (K × V)} {e : K} {i : Nat}
    (h : i < upperBound l e) {p : K × V} (hp : l[i]? = some p) : p.1 ≤ e := by
  apply mem_take_upperBound (l := l) (k := e)
  exact List.getElem?_mem (by rwa [List.getElem?_take_of_lt h])

theorem getElem?_gt_upperBound {l : List (K × V)} {e : K} {i : Nat}
    (hs : SortedKeys l) (h : upperBound l e ≤ i) {p : K × V}
    (hp : l[i]? = some p) : e < p.1 := by
  apply mem_drop_upperBound hs (k := e)
  apply List.getElem?_mem (n := i - upperBound l e)
  rw [List.getElem?_drop]
  rwa [Nat.add_sub_cancel' h]

theorem sorted_getElem?_mono {l : List (K × V)} (hs : SortedKeys l)
    {i j : Nat} (hij : i < j) {p q : K × V}
    (hp : l[i]? = some p) (hq : l[j]? = some q) : p.1 < q.1 := by
  obtain ⟨hi, rfl⟩ := List.getElem?_eq_some_iff.mp hp
  obtain ⟨hj, rfl⟩ := List.getElem?_eq_some_iff.mp hq
  exact List.pairwise_iff_getElem.mp hs i j hi hj hij

/-! ### `lookupL` machinery -/

theorem lookupL_all_gt {vb : V} {l : List (K × V)} {k : K}
    (h : ∀ p ∈ l, k < p.1) : lookupL vb l k = vb := by
  cases l with
  | nil => rfl
  | cons p rest => simp [lookupL, h p (List.mem_cons_self p rest)]

theorem lookupL_append {vb : V} {l₁ l₂ : List (K × V)} {k : K}
    (h : ∀ p ∈ l₁, ∀ q ∈ l₂, p.1 < q.1) :
    lookupL vb (l₁ ++ l₂) k = lookupL (lookupL vb l₁ k) l₂ k := by
  induction l₁ generalizing vb with
  | nil => simp [lookupL]
  | cons p rest ih =>
    by_cases hk : k < p.1
    · simp only [List.cons_append, lookupL, if_pos hk]
      exact (lookupL_all_gt fun q hq =>
        hk.trans (h p (List.mem_cons_self p rest) q hq)).symm
    · simp only [List.cons_append, lookupL, if_neg hk]
      exact ih fun r hr q hq => h r (List.mem_cons_of_mem p hr) q hq

theorem lookupL_all_le {vb : V} {l : List (K × V)} {k : K}
    (h : ∀ p ∈ l, p.1 ≤ k) : lookupL vb l k = lastVal vb l := by
  induction l generalizing vb with
  | nil => rfl
  | cons p rest ih =>
    have hk : ¬ k < p.1 := not_lt.mpr (h p (List.mem_cons_self p rest))
    simp only [lookupL, if_neg hk]
    rw [ih fun q hq => h q (List.mem_cons_of_mem p hq)]
    cases rest with
    | nil => rfl
    | cons r rs =>
      simp only [lastVal, List.getLast?_cons_cons]
      cases h' : (r :: rs).getLast? with
      | none => exact absurd (List.getLast?_eq_none_iff.mp h') (List.cons_ne_nil r rs)
      | some q => rfl

theorem upperBound_lookup_eq (l : List (K × V)) (vb : V) (k : K) :
    (if upperBound l k = 0 then vb else valueAt l (upperBound l k - 1) vb) =
      lookupL vb l k := by
  induction l generalizing vb with
  | nil => rfl
  | cons p rest ih =>
    by_cases hk : k < p.1
    · simp [upperBound, lookupL, hk]
    · simp only [upperBound, if_neg hk, lookupL]
      rw [if_neg (Nat.succ_ne_zero (upperBound rest k)), Nat.add_sub_cancel]
      rw [← ih p.2]
      by_cases h0 : upperBound rest k = 0
      · simp [h0, valueAt]
      · rw [if_neg h0]
        generalize hg : upperBound rest k - 1 = j
        have hn : j + 1 = upperBound rest k := by
          have := Nat.pos_of_ne_zero h0; omega
        have hjlen : j < rest.length := by
          have := upperBound_le_length rest k; omega
        rw [← hn]
        simp only [valueAt, List.getElem?_cons_succ]
        rw [List.getElem?_eq_getElem hjlen]

theorem lookup_eq_lookupL (m : interval_map K V) (k : K) :
    lookup m k = lookupL m.m_valBegin m.m_map k := by
  rw [← upperBound_lookup_eq m.m_map m.m_valBegin k]
  rfl

/-! ### The backward iterator walk -/

theorem walkBack_le (l : List (K × V)) (b : K) (i : Nat) :
    walkBack l b i ≤ i := by
  induction i with
  | zero => simp [walkBack]
  | succ j ih =>
    rw [walkBack]
    split
    · split
      · exact ih.trans (Nat.le_succ j)
      · exact le_refl _
    · exact le_refl _

theorem walkBack_stops {l : List (K × V)} {b : K} {s i : Nat}
    (hi : i < l.length) (hsi : s ≤ i)
    (habove : ∀ j, s < j → j ≤ i → ∀ p : K × V, l[j]? = some p → b < p.1)
    (hstop : s ≠ 0 → ∀ p : K × V, l[s]? = some p → ¬ b < p.1) :
    walkBack l b i = s := by
  induction i with
  | zero =>
    have : s = 0 := Nat.le_zero.mp hsi
    simp [walkBack, this]
  | succ j ih =>
    have hp : l[j + 1]? = some (l[j + 1]) := List.getElem?_eq_getElem hi
    rcases Nat.lt_or_ge s (j + 1) with hlt | hge
    · have hbp : b < (l[j + 1]).1 := habove (j + 1) hlt (le_refl _) _ hp
      rw [walkBack, hp]
      show (if b < (l[j + 1]).1 then walkBack l b j else j + 1) = s
      rw [if_pos hbp]
      exact ih (Nat.lt_of_succ_lt hi) (Nat.lt_succ_iff.mp hlt)
        (fun j' h1 h2 p' => habove j' h1 (h2.trans (Nat.le_succ j)) p')
    · have hs : s = j + 1 := le_antisymm hsi hge
      subst hs
      have hnb := hstop (Nat.succ_ne_zero j) _ hp
      rw [walkBack, hp]
      show (if b < (l[j + 1]).1 then walkBack l b j else j + 1) = j + 1
      rw [if_neg hnb]

/-- In the non-empty branch of `assign`, the position reached by the backward
walk followed by the conditional forward step is exactly the position of the
first entry with key `≥ keyBegin`. -/
theorem itStart_eq_lowerBound {l : List (K × V)} {b e : K}
    (hs : SortedKeys l) (hne : l ≠ []) (hbe : b < e) :
    (if keyLtAt l
          (walkBack l b
            (if upperBound l e ≠ 0 then upperBound l e - 1 else upperBound l e))
          b ∧
        walkBack l b
            (if upperBound l e ≠ 0 then upperBound l e - 1 else upperBound l e) ≠
          upperBound l e
     then
       walkBack l b
          (if upperBound l e ≠ 0 then upperBound l e - 1 else upperBound l e) + 1
     else
       walkBack l b
          (if upperBound l e ≠ 0 then upperBound l e - 1 else upperBound l e)) =
      lowerBound l b := by
  have hubl : upperBound l e ≤ l.length := upperBound_le_length l e
  have hs0l : lowerBound l b ≤ l.length := lowerBound_le_length l b
  have hs0ub : lowerBound l b ≤ upperBound l e := by
    by_contra hlt
    push_neg at hlt
    have hublen : upperBound l e < l.length := lt_of_lt_of_le hlt hs0l
    have hp : l[upperBound l e]? = some (l[upperBound l e]) :=
      List.getElem?_eq_getElem hublen
    have h1 : (l[upperBound l e]).1 < b := getElem?_lt_lowerBound hlt hp
    have h2 : e < (l[upperBound l e]).1 :=
      getElem?_gt_upperBound hs (le_refl _) hp
    exact lt_asymm hbe (h2.trans h1)
  by_cases hub0 : upperBound l e = 0
  · have hs00 : lowerBound l b = 0 := Nat.le_zero.mp (hub0 ▸ hs0ub)
    have h1 : (if upperBound l e ≠ 0 then upperBound l e - 1 else upperBound l e)
        = 0 := by simp [hub0]
    rw [h1]
    have hw : walkBack l b 0 = 0 := rfl
    rw [hw]
    have hl0 : 0 < l.length := List.length_pos.mpr hne
    have hp : l[0]? = some (l[0]) := List.getElem?_eq_getElem hl0
    have hge : b ≤ (l[0]).1 :=
      getElem?_ge_lowerBound hs (le_of_eq hs00) hp
    have hklt : keyLtAt l 0 b = false := by
      simp [keyLtAt, hp, not_lt.mpr hge]
    rw [if_neg]
    · exact hs00.symm
    · rintro ⟨hc, -⟩
      rw [hklt] at hc
      exact Bool.false_ne_true hc
  · have h1 : (if upperBound l e ≠ 0 then upperBound l e - 1 else upperBound l e)
        = upperBound l e - 1 := if_pos hub0
    rw [h1]
    have hub1 : 0 < upperBound l e := Nat.pos_of_ne_zero hub0
    have hub1len : upperBound l e - 1 < l.length := by omega
    by_cases hcase : lowerBound l b = upperBound l e
    · -- every erased candidate lies strictly below `b`: step forward once
      have hpm : l[upperBound l e - 1]? = some (l[upperBound l e - 1]) :=
        List.getElem?_eq_getElem hub1len
      have hkey : (l[upperBound l e - 1]).1 < b :=
        getElem?_lt_lowerBound (by omega) hpm
      have hw : walkBack l b (upperBound l e - 1) = upperBound l e - 1 := by
        apply walkBack_stops hub1len (le_refl _)
        · intro j hj1 hj2 p hp'
          omega
        · intro _ p hp'
          rw [hpm] at hp'
          injection hp' with h'
          subst h'
          exact lt_asymm hkey
      rw [hw]
      have hklt : keyLtAt l (upperBound l e - 1) b = true := by
        simp [keyLtAt, hpm, hkey]
      rw [if_pos ⟨hklt, by omega⟩]
      omega
    · have hlt : lowerBound l b < upperBound l e :=
        lt_of_le_of_ne hs0ub hcase
      have hs0len : lowerBound l b < l.length := lt_of_lt_of_le hlt hubl
      have hp0 : l[lowerBound l b]? = some (l[lowerBound l b]) :=
        List.getElem?_eq_getElem hs0len
      have hbl : b ≤ (l[lowerBound l b]).1 :=
        getElem?_ge_lowerBound hs (le_refl _) hp0
      have habove : ∀ j, lowerBound l b < j → ∀ p : K × V,
          l[j]? = some p → b < p.1 := by
        intro j hj p hp'
        exact lt_of_le_of_lt hbl (sorted_getElem?_mono hs hj hp0 hp')
      by_cases hbeq : b < (l[lowerBound l b]).1
      · by_cases hs00 : lowerBound l b = 0
        · have hw : walkBack l b (upperBound l e - 1) = 0 := by
            apply walkBack_stops hub1len (Nat.zero_le _)
            · intro j hj1 hj2 p hp'
              exact habove j (by omega) p hp'
            · intro h0
              exact absurd rfl h0
          rw [hw]
          have hklt : keyLtAt l 0 b = false := by
            rw [← hs00]
            simp [keyLtAt, hp0, lt_asymm hbeq]
          rw [if_neg]
          · exact hs00.symm
          · rintro ⟨hc, -⟩
            rw [hklt] at hc
            exact Bool.false_ne_true hc
        · -- the walk stops one position below `lowerBound l b`
          have hsm1len : lowerBound l b - 1 < l.length := by omega
          have hpm : l[lowerBound l b - 1]? =
              some (l[lowerBound l b - 1]) :=
            List.getElem?_eq_getElem hsm1len
          have hkeym : (l[lowerBound l b - 1]).1 < b :=
            getElem?_lt_lowerBound (by omega) hpm
          have hw : walkBack l b (upperBound l e - 1) = lowerBound l b - 1 := by
            apply walkBack_stops hub1len (by omega)
            · intro j hj1 hj2 p hp'
              rcases eq_or_lt_of_le (by omega : lowerBound l b ≤ j) with heq | hlt'
              · rw [← heq] at hp'
                rw [hp0] at hp'
                injection hp' with h'
                subst h'
                exact hbeq
              · exact habove j hlt' p hp'
            · intro _ p hp'
              rw [hpm] at hp'
              injection hp' with h'
              subst h'
              exact lt_asymm hkeym
          rw [hw]
          have hklt : keyLtAt l (lowerBound l b - 1) b = true := by
            simp [keyLtAt, hpm, hkeym]
          rw [if_pos ⟨hklt, by omega⟩]
          omega
      · -- the entry at `lowerBound l b` has key exactly `b`: walk stops on it
        have hkeyb : (l[lowerBound l b]).1 = b :=
          le_antisymm (not_lt.mp hbeq) hbl
        have hw : walkBack l b (upperBound l e - 1) = lowerBound l b := by
          apply walkBack_stops hub1len (by omega)
          · intro j hj1 hj2 p hp'
            exact habove j hj1 p hp'
          · intro _ p hp'
            rw [hp0] at hp'
            injection hp' with h'
            subst h'
            rw [hkeyb]
            exact lt_irrefl b
        rw [hw]
        have hklt : keyLtAt l (lowerBound l b) b = false := by
          simp [keyLtAt, hp0, hkeyb]
        rw [if_neg]
        · rintro ⟨hc, -⟩
          rw [hklt] at hc
          exact Bool.false_ne_true hc

/-! ### Normal form of `assign` on a non-empty table -/

theorem take_lowerBound_eq_takeWhile (l : List (K × V)) (b : K) :
    l.take (lowerBound l b) = l.takeWhile (fun p => decide (p.1 < b)) := by
  induction l with
  | nil => rfl
  | cons p rest ih =>
    by_cases h : p.1 < b
    · simp [lowerBound, List.takeWhile_cons, h, ih]
    · simp [lowerBound, List.takeWhile_cons, h]

theorem prevBelow_eq_lastVal_take {vb : V} (l : List (K × V)) (b : K) :
    prevBelow vb l b = lastVal vb (l.take (lowerBound l b)) := by
  rw [prevBelow, lastVal, take_lowerBound_eq_takeWhile]

theorem prevBelow_of_lowerBound_zero {vb : V} {l : List (K × V)} {b : K}
    (h : lowerBound l b = 0) : prevBelow vb l b = vb := by
  rw [prevBelow_eq_lastVal_take, h]
  rfl

theorem prevBelow_of_lowerBound_pos {vb : V} {l : List (K × V)} {b : K}
    (h : lowerBound l b ≠ 0) :
    prevBelow vb l b = valueAt l (lowerBound l b - 1) vb := by
  have hlen : lowerBound l b ≤ l.length := lowerBound_le_length l b
  rw [prevBelow_eq_lastVal_take, lastVal, List.getLast?_eq_getElem?]
  have hlen' : (l.take (lowerBound l b)).length = lowerBound l b := by
    simp [List.length_take, Nat.min_eq_left hlen]
  rw [hlen', List.getElem?_take_of_lt (by omega)]
  rfl

theorem beginCond_iff {l : List (K × V)} {vb v : V} {b : K} :
    ((¬ (lowerBound l b ≠ 0 ∧ valueAt l (lowerBound l b - 1) vb = v)) ∧
        ¬ (lowerBound l b = 0 ∧ v = vb)) ↔
      ¬ (prevBelow vb l b = v) := by
  by_cases h0 : lowerBound l b = 0
  · rw [prevBelow_of_lowerBound_zero h0]
    simp [h0, eq_comm]
  · rw [prevBelow_of_lowerBound_pos h0]
    simp [h0]

theorem valEnd_eq_lookupL (l : List (K × V)) (vb : V) (e : K) :
    (if upperBound l e ≠ 0 then valueAt l (upperBound l e - 1) vb else vb) =
      lookupL vb l e := by
  rw [← upperBound_lookup_eq l vb e]
  by_cases h : upperBound l e = 0 <;> simp [h]

theorem mapInsert_append {A B : List (K × V)} {q : K × V}
    (hA : ∀ p ∈ A, p.1 < q.1) (hB : ∀ p ∈ B, q.1 < p.1) :
    mapInsert (A ++ B) q = A ++ q :: B := by
  induction A with
  | nil =>
    cases B with
    | nil => rfl
    | cons p rest =>
      have h := hB p (List.mem_cons_self p rest)
      simp [mapInsert, h, asymm h]
  | cons p rest ih =>
    have h := hA p (List.mem_cons_self p rest)
    simp only [List.cons_append, mapInsert, if_neg (asymm h), if_pos h]
    exact congrArg (List.cons p) (ih fun r hr => hA r (List.mem_cons_of_mem p hr))

theorem assign_valBegin (m : interval_map K V) (b e : K) (v : V) :
    (assign m b e v).m_valBegin = m.m_valBegin := by
  unfold assign
  split
  · rfl
  · split
    · rfl
    · rfl

/-- On a non-empty table with a well-formed range, `assign` erases exactly the
entries with key in `[keyBegin, keyEnd]` and re-inserts the begin boundary
(unless the value just below `keyBegin` already equals `val`) and the end
boundary carrying the old value at `keyEnd` (unless that value equals `val`). -/
theorem assign_normal {m : interval_map K V} {b e : K} {v : V}
    (hs : SortedKeys m.m_map) (hne : m.m_map ≠ []) (hbe : b < e) :
    (assign m b e v).m_map =
      m.m_map.take (lowerBound m.m_map b)
        ++ (if prevBelow m.m_valBegin m.m_map b = v then [] else [(b, v)])
        ++ (if lookupL m.m_valBegin m.m_map e = v then []
            else [(e, lookupL m.m_valBegin m.m_map e)])
        ++ m.m_map.drop (upperBound m.m_map e) := by
  obtain ⟨vb, l⟩ := m
  simp only at hs hne ⊢
  have hEmpty : l.isEmpty = false := by
    cases l with
    | nil => exact absurd rfl hne
    | cons a as => rfl
  simp only [assign, if_neg (not_not_intro hbe), hEmpty, Bool.false_eq_true,
    if_false, itStart_eq_lowerBound hs hne hbe, valEnd_eq_lookupL]
  rw [if_congr (@beginCond_iff K V _ _ l vb v b) rfl rfl]
  have hA : ∀ p ∈ l.take (lowerBound l b), p.1 < b :=
    fun p hp => mem_take_lowerBound hp
  have hB : ∀ p ∈ l.drop (upperBound l e), e < p.1 :=
    fun p hp => mem_drop_upperBound hs hp
  have hBb : ∀ p ∈ l.drop (upperBound l e), b < p.1 :=
    fun p hp => hbe.trans (hB p hp)
  by_cases hbeg : prevBelow vb l b = v
  · rw [if_neg (not_not_intro hbeg), if_pos hbeg]
    by_cases hend : lookupL vb l e = v
    · rw [if_neg (not_not_intro hend), if_pos hend]
      simp
    · rw [if_pos hend, if_neg hend]
      rw [mapInsert_append (fun p hp => (hA p hp).trans hbe) hB]
      simp
  · rw [if_pos hbeg, if_neg hbeg]
    by_cases hend : lookupL vb l e = v
    · rw [if_neg (not_not_intro hend), if_pos hend]
      rw [mapInsert_append hA hBb]
      simp
    · rw [if_pos hend, if_neg hend]
      rw [mapInsert_append hA hBb, List.append_cons]
      have hA' : ∀ p ∈ l.take (lowerBound l b) ++ [(b, v)], p.1 < e := by
        intro p hp
        rcases List.mem_append.mp hp with hp | hp
        · exact (hA p hp).trans hbe
        · rcases List.mem_singleton.mp hp with rfl
          exact hbe
      rw [mapInsert_append hA' hB]
      simp

/-! ### Lookup after `assign` -/

theorem lowerBound_le_upperBound {l : List (K × V)} {b e : K}
    (hs : SortedKeys l) (hbe : b < e) : lowerBound l b ≤ upperBound l e := by
  by_contra hlt
  push_neg at hlt
  have hublen : upperBound l e < l.length :=
    lt_of_lt_of_le hlt (lowerBound_le_length l b)
  have hp : l[upperBound l e]? = some (l[upperBound l e]) :=
    List.getElem?_eq_getElem hublen
  have h1 : (l[upperBound l e]).1 < b := getElem?_lt_lowerBound hlt hp
  have h2 : e < (l[upperBound l e]).1 :=
    getElem?_gt_upperBound hs (le_refl _) hp
  exact lt_asymm hbe (h2.trans h1)

theorem lastVal_append {vb : V} (A B : List (K × V)) :
    lastVal vb (A ++ B) = lastVal (lastVal vb A) B := by
  rw [lastVal, lastVal, lastVal, List.getLast?_append]
  cases h : B.getLast? <;> simp [Option.or]

theorem lookupL_take_lowerBound {vb : V} {l : List (K × V)} {b k : K}
    (hk : b ≤ k) :
    lookupL vb (l.take (lowerBound l b)) k = prevBelow vb l b := by
  rw [prevBelow_eq_lastVal_take]
  exact lookupL_all_le fun p hp =>
    le_of_lt (lt_of_lt_of_le (mem_take_lowerBound hp) hk)

theorem lookupL_eq_lastVal_take_upperBound {vb : V} {l : List (K × V)} {e : K}
    (hs : SortedKeys l) :
    lookupL vb l e = lastVal vb (l.take (upperBound l e)) := by
  conv_lhs => rw [← List.take_append_drop (upperBound l e) l]
  rw [lookupL_append fun p hp q hq =>
    lt_of_le_of_lt (mem_take_upperBound hp) (mem_drop_upperBound hs hq)]
  rw [lookupL_all_gt fun p hp => mem_drop_upperBound hs hp]
  exact lookupL_all_le fun p hp => mem_take_upperBound hp

theorem assign_empty {m : interval_map K V} {b e : K} {v : V}
    (hm : m.m_map = []) (hbe : b < e) :
    (assign m b e v).m_map = [(b, v), (e, m.m_valBegin)] := by
  obtain ⟨vb, l⟩ := m
  simp only at hm ⊢
  subst hm
  simp [assign, hbe, mapInsert, asymm hbe]

theorem mem_ite_nil_singleton {c : Prop} [Decidable c] {x q : K × V}
    (h : q ∈ (if c then ([] : List (K × V)) else [x])) : q = x := by
  split at h
  · simp at h
  · simpa using h

/-- After `assign(b, e, v)` on a sorted table, lookup returns `v` inside
`[b, e)` and is unchanged outside. -/
theorem lookupL_assign {m : interval_map K V} {b e : K} {v : V}
    (hs : SortedKeys m.m_map) (hbe : b < e) (k : K) :
    lookupL m.m_valBegin (assign m b e v).m_map k =
      if b ≤ k ∧ k < e then v else lookupL m.m_valBegin m.m_map k := by
  by_cases hne : m.m_map = []
  · rw [assign_empty hne hbe, hne]
    by_cases h1 : k < b
    · have hnot : ¬ (b ≤ k ∧ k < e) := fun h => absurd h.1 (not_le.mpr h1)
      simp [lookupL, h1, hnot]
    · by_cases h2 : k < e
      · have hyes : b ≤ k ∧ k < e := ⟨not_lt.mp h1, h2⟩
        simp [lookupL, h1, h2, hyes]
      · have hnot : ¬ (b ≤ k ∧ k < e) := fun h => absurd h.2 h2
        simp [lookupL, h1, h2, hnot]
  · rw [assign_normal hs hne hbe]
    set vb := m.m_valBegin with hvbdef
    set l := m.m_map with hldef
    set s0 := lowerBound l b with hs0def
    set ub := upperBound l e with hubdef
    set A := l.take s0 with hAdef
    set P := l.drop ub with hPdef
    set vE := lookupL vb l e with hvEdef
    set pV := prevBelow vb l b with hpVdef
    set mid := (l.drop s0).take (ub - s0) with hmiddef
    have hA : ∀ p ∈ A, p.1 < b := fun p hp => mem_take_lowerBound hp
    have hP : ∀ p ∈ P, e < p.1 := fun p hp => mem_drop_upperBound hs hp
    have hs0ub : s0 ≤ ub := lowerBound_le_upperBound hs hbe
    have htake : l.take ub = A ++ mid := by
      have h := List.take_add l s0 (ub - s0)
      rw [Nat.add_sub_cancel' hs0ub] at h
      exact h
    have hmid : l = A ++ (mid ++ P) := by
      conv_lhs => rw [← List.take_append_drop ub l]
      rw [htake, List.append_assoc]
    have hmidmem : ∀ p ∈ mid, b ≤ p.1 ∧ p.1 ≤ e := by
      intro p hp
      refine ⟨mem_drop_lowerBound hs (List.mem_of_mem_take hp), ?_⟩
      apply mem_take_upperBound (l := l) (k := e)
      rw [← hubdef, htake]
      exact List.mem_append_right A hp
    have hM1 : ∀ q ∈ (if pV = v then ([] : List (K × V)) else [(b, v)]),
        q.1 = b := fun q hq => by rw [mem_ite_nil_singleton hq]
    have hM2 : ∀ q ∈ (if vE = v then ([] : List (K × V)) else [(e, vE)]),
        q.1 = e := fun q hq => by rw [mem_ite_nil_singleton hq]
    -- decompose the new table's lookup
    rw [List.append_assoc, List.append_assoc]
    rw [lookupL_append ?crossA, lookupL_append ?crossM1,
      lookupL_append ?crossM2]
    case crossA =>
      intro p hp q hq
      rcases List.mem_append.mp hq with hq | hq
      · rw [hM1 q hq]; exact hA p hp
      rcases List.mem_append.mp hq with hq | hq
      · rw [hM2 q hq]; exact (hA p hp).trans hbe
      · exact (hA p hp).trans (hbe.trans (hP q hq))
    case crossM1 =>
      intro p hp q hq
      rw [hM1 p hp]
      rcases List.mem_append.mp hq with hq | hq
      · rw [hM2 q hq]; exact hbe
      · exact hbe.trans (hP q hq)
    case crossM2 =>
      intro p hp q hq
      rw [hM2 p hp]
      exact hP q hq
    -- decompose the old table's lookup
    have hold : lookupL vb l k =
        lookupL (lookupL (lookupL vb A k) mid k) P k := by
      conv_lhs => rw [hmid]
      rw [lookupL_append fun p hp q hq => ?_, lookupL_append
        fun p hp q hq => lt_of_le_of_lt (hmidmem p hp).2 (hP q hq)]
      rcases List.mem_append.mp hq with hq | hq
      · exact lt_of_lt_of_le (hA p hp) (hmidmem q hq).1
      · exact (hA p hp).trans (hbe.trans (hP q hq))
    by_cases hk1 : b ≤ k
    · by_cases hk2 : k < e
      · -- inside the assigned range: the new lookup gives `v`
        rw [if_pos (show b ≤ k ∧ k < e from ⟨hk1, hk2⟩)]
        rw [lookupL_all_gt (l := P) fun p hp => hk2.trans (hP p hp)]
        rw [lookupL_all_gt (l := if vE = v then [] else [(e, vE)])
          fun p hp => by rw [hM2 p hp]; exact hk2]
        have hx : lookupL vb A k = pV := lookupL_take_lowerBound hk1
        by_cases hbeg : pV = v
        · rw [if_pos hbeg]
          simp only [lookupL]
          rw [hx, hbeg]
        · rw [if_neg hbeg]
          simp [lookupL, not_lt.mpr hk1]
      · -- at or above `e`: both lookups give the old value at `e`
        rw [if_neg (show ¬ (b ≤ k ∧ k < e) from fun h => hk2 h.2), hold]
        have hek : e ≤ k := not_lt.mp hk2
        have hbk : b ≤ k := hk1
        have hxA : lookupL vb A k = lastVal vb A :=
          lookupL_all_le fun p hp => le_of_lt (lt_of_lt_of_le (hA p hp) hbk)
        have hz2 : lookupL (lookupL vb A k) mid k = vE := by
          rw [lookupL_all_le fun p hp => (hmidmem p hp).2.trans hek, hxA,
            ← lastVal_append, ← htake, hvEdef,
            lookupL_eq_lastVal_take_upperBound hs]
        rw [hz2]
        have hxpV : lookupL vb A k = pV := lookupL_take_lowerBound hbk
        by_cases hend : vE = v
        · rw [if_pos hend]
          by_cases hbeg : pV = v
          · rw [if_pos hbeg]
            simp only [lookupL]
            rw [hxpV, hbeg, ← hend]
          · rw [if_neg hbeg]
            have : ¬ k < b := not_lt.mpr hbk
            simp only [lookupL, if_neg this]
            rw [← hend]
        · rw [if_neg hend]
          have : ¬ k < e := not_lt.mpr hek
          rcases em (pV = v) with hbeg | hbeg
          · rw [if_pos hbeg]
            simp [lookupL, this]
          · rw [if_neg hbeg]
            simp [lookupL, this, not_lt.mpr hbk]
    · -- strictly below `b`: everything passes through unchanged
      have hkb : k < b := not_le.mp hk1
      rw [if_neg (show ¬ (b ≤ k ∧ k < e) from fun h => hk1 h.1), hold]
      rw [lookupL_all_gt (l := P) fun p hp => hkb.trans (hbe.trans (hP p hp))]
      rw [lookupL_all_gt (l := mid)
        fun p hp => lt_of_lt_of_le hkb (hmidmem p hp).1]
      rw [lookupL_all_gt (l := if vE = v then [] else [(e, vE)])
        fun p hp => by rw [hM2 p hp]; exact hkb.trans hbe]
      rw [lookupL_all_gt (l := if pV = v then [] else [(b, v)])
        fun p hp => by rw [hM1 p hp]; exact hkb]
      rw [lookupL_all_gt (l := P) fun p hp => hkb.trans (hbe.trans (hP p hp))]

/-! ### Preservation of the representation invariants -/

theorem assign_no_range {m : interval_map K V} {b e : K} {v : V}
    (h : ¬ b < e) : assign m b e v = m := by
  unfold assign
  rw [if_pos h]

theorem sortedKeys_assign {m : interval_map K V} (hs : SortedKeys m.m_map)
    (b e : K) (v : V) : SortedKeys (assign m b e v).m_map := by
  by_cases hbe : b < e
  · by_cases hne : m.m_map = []
    · rw [assign_empty hne hbe]
      simp [SortedKeys, List.pairwise_cons, hbe]
    · rw [assign_normal hs hne hbe]
      have hA : ∀ p ∈ m.m_map.take (lowerBound m.m_map b), p.1 < b :=
        fun p hp => mem_take_lowerBound hp
      have hP : ∀ p ∈ m.m_map.drop (upperBound m.m_map e), e < p.1 :=
        fun p hp => mem_drop_upperBound hs hp
      have hM1 : ∀ q ∈ (if prevBelow m.m_valBegin m.m_map b = v
          then ([] : List (K × V)) else [(b, v)]), q.1 = b :=
        fun q hq => by rw [mem_ite_nil_singleton hq]
      have hM2 : ∀ q ∈ (if lookupL m.m_valBegin m.m_map e = v
          then ([] : List (K × V))
          else [(e, lookupL m.m_valBegin m.m_map e)]), q.1 = e :=
        fun q hq => by rw [mem_ite_nil_singleton hq]
      rw [SortedKeys, List.append_assoc, List.append_assoc,
        List.pairwise_append]
      refine ⟨(hs : List.Pairwise _ _).sublist (List.take_sublist _ _),
        ?_, ?_⟩
      · rw [List.pairwise_append]
        refine ⟨by split <;> simp, ?_, ?_⟩
        · rw [List.pairwise_append]
          refine ⟨by split <;> simp,
            (hs : List.Pairwise _ _).sublist (List.drop_sublist _ _), ?_⟩
          intro x hx y hy
          rw [hM2 x hx]
          exact hP y hy
        · intro x hx y hy
          rw [hM1 x hx]
          rcases List.mem_append.mp hy with hy | hy
          · rw [hM2 y hy]; exact hbe
          · exact hbe.trans (hP y hy)
      · intro x hx y hy
        rcases List.mem_append.mp hy with hy | hy
        · rw [hM1 y hy]; exact hA x hx
        rcases List.mem_append.mp hy with hy | hy
        · rw [hM2 y hy]; exact (hA x hx).trans hbe
        · exact (hA x hx).trans (hbe.trans (hP y hy))
  · rw [assign_no_range hbe]
    exact hs

theorem getLast?_cons_map_snd (x : V) (l : List (K × V)) :
    (x :: l.map Prod.snd).getLast? = some (lastVal x l) := by
  rw [show x :: l.map Prod.snd = [x] ++ l.map Prod.snd from rfl,
    List.getLast?_append, List.getLast?_map]
  cases hl : l.getLast? <;> simp [lastVal, hl, Option.or]

theorem lookupL_head_key {vb : V} {p : K × V} {r : List (K × V)}
    (hs : SortedKeys (p :: r)) : lookupL vb (p :: r) p.1 = p.2 := by
  simp only [lookupL, if_neg (lt_irrefl p.1)]
  exact lookupL_all_gt fun q hq => (List.pairwise_cons.mp hs).1 q hq

theorem canonicalMap_head {vb : V} {p : K × V} {r : List (K × V)}
    (hc : CanonicalMap vb (p :: r)) : vb ≠ p.2 := by
  rw [CanonicalMap, List.map_cons, List.chain'_cons] at hc
  exact hc.1

theorem canonicalMap_tail {vb : V} {p : K × V} {r : List (K × V)}
    (hc : CanonicalMap vb (p :: r)) : CanonicalMap p.2 r := by
  rw [CanonicalMap, List.map_cons] at hc
  exact hc.tail

/-- One `assign` call preserves the redundancy-free invariant, except when it
is issued on an empty table with a well-formed range and the default value
itself. -/
theorem canonical_assign {m : interval_map K V} {b e : K} {v : V}
    (hs : SortedKeys m.m_map) (hc : CanonicalMap m.m_valBegin m.m_map)
    (hsafe : m.m_map = [] → b < e → v ≠ m.m_valBegin) :
    CanonicalMap m.m_valBegin (assign m b e v).m_map := by
  by_cases hbe : b < e
  · by_cases hne : m.m_map = []
    · have hv : v ≠ m.m_valBegin := hsafe hne hbe
      rw [assign_empty hne hbe, CanonicalMap]
      simp [List.chain'_cons, hv, Ne.symm hv]
    · rw [assign_normal hs hne hbe]
      set vb := m.m_valBegin with hvbdef
      set l := m.m_map with hldef
      set s0 := lowerBound l b with hs0def
      set ub := upperBound l e with hubdef
      set A := l.take s0 with hAdef
      set P := l.drop ub with hPdef
      set vE := lookupL vb l e with hvEdef
      set pV := prevBelow vb l b with hpVdef
      set mid := (l.drop s0).take (ub - s0) with hmiddef
      have hs0ub : s0 ≤ ub := lowerBound_le_upperBound hs hbe
      have htake : l.take ub = A ++ mid := by
        have h := List.take_add l s0 (ub - s0)
        rw [Nat.add_sub_cancel' hs0ub] at h
        exact h
      -- the last value kept below the erased span, seen through the chain
      have hXlast : (vb :: A.map Prod.snd).getLast? = some pV := by
        rw [getLast?_cons_map_snd, hpVdef, prevBelow_eq_lastVal_take]
      have hvElast : (vb :: (l.take ub).map Prod.snd).getLast? = some vE := by
        rw [getLast?_cons_map_snd, hvEdef,
          lookupL_eq_lastVal_take_upperBound hs]
      -- split the original chain at position `ub`
      have hcsplit : (vb :: (l.take ub).map Prod.snd).Chain' (fun a c => a ≠ c)
          ∧ ∀ x ∈ (vb :: (l.take ub).map Prod.snd).getLast?,
              ∀ y ∈ (P.map Prod.snd).head?, x ≠ y := by
        have hc' := hc
        rw [CanonicalMap] at hc'
        conv at hc' => rw [← List.take_append_drop ub l]
        rw [List.map_append, ← List.cons_append, List.chain'_append] at hc'
        exact ⟨hc'.1, hc'.2.2⟩
      have hZchain : (P.map Prod.snd).Chain' (fun a c => a ≠ c) := by
        have hc' := hc
        rw [CanonicalMap] at hc'
        conv at hc' => rw [← List.take_append_drop ub l]
        rw [List.map_append, ← List.cons_append, List.chain'_append] at hc'
        exact hc'.2.1
      have hZhead : ∀ y ∈ (P.map Prod.snd).head?, vE ≠ y := by
        intro y hy
        exact hcsplit.2 vE (by rw [hvElast]; rfl) y hy
      have hXchain : (vb :: A.map Prod.snd).Chain' (fun a c => a ≠ c) := by
        have h := hcsplit.1
        rw [htake, List.map_append, ← List.cons_append,
          List.chain'_append] at h
        exact h.1
      rw [CanonicalMap, List.map_append, List.map_append, List.map_append,
        ← List.cons_append, ← List.cons_append, ← List.cons_append,
        List.append_assoc, List.append_assoc]
      by_cases hbeg : pV = v
      · by_cases hend : vE = v
        · rw [if_pos hbeg, if_pos hend]
          simp only [List.map_nil, List.nil_append]
          rw [List.chain'_append]
          refine ⟨hXchain, hZchain, ?_⟩
          intro x hx y hy
          rw [hXlast] at hx
          simp only [Option.mem_def, Option.some.injEq] at hx
          subst hx
          rw [hbeg, ← hend]
          exact hZhead y hy
        · rw [if_pos hbeg, if_neg hend]
          simp only [List.map_nil, List.nil_append, List.map_cons,
            List.singleton_append]
          rw [List.chain'_append]
          refine ⟨hXchain, ?_, ?_⟩
          · rw [List.chain'_cons']
            exact ⟨hZhead, hZchain⟩
          · intro x hx y hy
            rw [hXlast] at hx
            simp only [Option.mem_def, Option.some.injEq] at hx
            subst hx
            simp only [List.head?_cons, Option.mem_def,
              Option.some.injEq] at hy
            subst hy
            exact fun h => hend (h.symm.trans hbeg)
      · by_cases hend : vE = v
        · rw [if_neg hbeg, if_pos hend]
          simp only [List.map_nil, List.nil_append, List.map_cons,
            List.singleton_append]
          rw [List.chain'_append]
          refine ⟨hXchain, ?_, ?_⟩
          · rw [List.chain'_cons']
            refine ⟨?_, hZchain⟩
            intro y hy
            rw [← hend]
            exact hZhead y hy
          · intro x hx y hy
            rw [hXlast] at hx
            simp only [Option.mem_def, Option.some.injEq] at hx
            subst hx
            simp only [List.head?_cons, Option.mem_def,
              Option.some.injEq] at hy
            subst hy
            exact hbeg
        · rw [if_neg hbeg, if_neg hend]
          simp only [List.map_cons, List.map_nil, List.singleton_append]
          rw [List.chain'_append]
          refine ⟨hXchain, ?_, ?_⟩
          · rw [List.chain'_cons]
            refine ⟨fun h => hend h.symm, ?_⟩
            rw [List.chain'_cons']
            exact ⟨hZhead, hZchain⟩
          · intro x hx y hy
            rw [hXlast] at hx
            simp only [Option.mem_def, Option.some.injEq] at hx
            subst hx
            simp only [List.head?_cons, Option.mem_def,
              Option.some.injEq] at hy
            subst hy
            exact hbeg
  · rw [assign_no_range hbe]
    exact hc

/-! ### Canonical representations are unique -/

/-- Two sorted, redundancy-free boundary tables computing the same lookup
function over the same default value are identical. -/
theorem canonical_unique {l₁ : List (K × V)} :
    ∀ {vb : V} {l₂ : List (K × V)}, SortedKeys l₁ → SortedKeys l₂ →
      CanonicalMap vb l₁ → CanonicalMap vb l₂ →
      (∀ k, lookupL vb l₁ k = lookupL vb l₂ k) → l₁ = l₂ := by
  induction l₁ with
  | nil =>
    intro vb l₂ hs1 hs2 hc1 hc2 hf
    cases l₂ with
    | nil => rfl
    | cons q r₂ =>
      exfalso
      have h2 : lookupL vb (q :: r₂) q.1 = q.2 := lookupL_head_key hs2
      exact canonicalMap_head hc2 (by rw [← h2, ← hf q.1]; rfl)
  | cons p r₁ ih =>
    intro vb l₂ hs1 hs2 hc1 hc2 hf
    cases l₂ with
    | nil =>
      exfalso
      have h1 : lookupL vb (p :: r₁) p.1 = p.2 := lookupL_head_key hs1
      exact canonicalMap_head hc1 (by rw [← h1, hf p.1]; rfl)
    | cons q r₂ =>
      have hk12 : p.1 = q.1 := by
        by_contra hne
        rcases lt_or_gt_of_ne hne with hlt | hgt
        · have h2 : lookupL vb (q :: r₂) p.1 = vb := by
            apply lookupL_all_gt
            intro x hx
            rcases List.mem_cons.mp hx with rfl | hx
            · exact hlt
            · exact hlt.trans ((List.pairwise_cons.mp hs2).1 x hx)
          have h1 : lookupL vb (p :: r₁) p.1 = p.2 := lookupL_head_key hs1
          exact canonicalMap_head hc1 (by rw [← h1, hf p.1, h2])
        · have h1 : lookupL vb (p :: r₁) q.1 = vb := by
            apply lookupL_all_gt
            intro x hx
            rcases List.mem_cons.mp hx with rfl | hx
            · exact hgt
            · exact hgt.trans ((List.pairwise_cons.mp hs1).1 x hx)
          have h2 : lookupL vb (q :: r₂) q.1 = q.2 := lookupL_head_key hs2
          exact canonicalMap_head hc2 (by rw [← h2, ← hf q.1, h1])
      have hv12 : p.2 = q.2 := by
        have h1 : lookupL vb (p :: r₁) p.1 = p.2 := lookupL_head_key hs1
        have h2 : lookupL vb (q :: r₂) q.1 = q.2 := lookupL_head_key hs2
        rw [← h1, hf p.1, hk12, h2]
      have hpq : p = q := Prod.ext hk12 hv12
      subst hpq
      have hr : r₁ = r₂ := by
        apply ih (List.pairwise_cons.mp hs1).2 (List.pairwise_cons.mp hs2).2
          (canonicalMap_tail hc1) (canonicalMap_tail hc2)
        intro k
        by_cases hk : k < p.1
        · rw [lookupL_all_gt fun x hx => hk.trans
            ((List.pairwise_cons.mp hs1).1 x hx)]
          rw [lookupL_all_gt fun x hx => hk.trans
            ((List.pairwise_cons.mp hs2).1 x hx)]
        · have h := hf k
          simp only [lookupL, if_neg hk] at h
          exact h
      rw [hr]

/-! ### Redundant assignments, boundary membership, greatest-boundary lookup -/

theorem interval_map_eq {m₁ m₂ : interval_map K V}
    (h1 : m₁.m_valBegin = m₂.m_valBegin) (h2 : m₁.m_map = m₂.m_map) :
    m₁ = m₂ := by
  cases m₁
  cases m₂
  simp only at h1 h2
  rw [h1, h2]

/-- Re-asserting a value that already holds on the whole of `[b, e)` leaves a
non-empty canonical table bit-for-bit unchanged. -/
theorem assign_noop {m : interval_map K V} {b e : K} {v : V}
    (hs : SortedKeys m.m_map) (hc : CanonicalMap m.m_valBegin m.m_map)
    (hne : m.m_map ≠ []) (hmatch : ∀ k, b ≤ k → k < e → lookup m k = v) :
    assign m b e v = m := by
  by_cases hbe : b < e
  · have hs' := sortedKeys_assign hs b e v
    have hc' := canonical_assign (b := b) (e := e) (v := v) hs hc
      (fun h => absurd h hne)
    have hvb := assign_valBegin m b e v
    have hfeq : ∀ k, lookupL m.m_valBegin (assign m b e v).m_map k =
        lookupL m.m_valBegin m.m_map k := by
      intro k
      rw [lookupL_assign hs hbe k]
      by_cases hin : b ≤ k ∧ k < e
      · rw [if_pos hin]
        have h := hmatch k hin.1 hin.2
        rw [lookup_eq_lookupL] at h
        exact h.symm
      · rw [if_neg hin]
    rw [← hvb] at hc' hfeq
    have hmap : (assign m b e v).m_map = m.m_map := by
      apply canonical_unique hs' hs hc'
      · rw [hvb]
        exact hc
      · intro k
        rw [hfeq k, hvb]
    exact interval_map_eq hvb hmap
  · exact assign_no_range hbe

theorem entryAt_append (l₁ l₂ : List (K × V)) (k : K) :
    entryAt (l₁ ++ l₂) k = (entryAt l₁ k).or (entryAt l₂ k) := by
  rw [entryAt, entryAt, entryAt, List.find?_append]
  cases h : l₁.find? (fun p => decide (p.1 = k)) <;> simp [Option.or]

theorem entryAt_eq_none {l : List (K × V)} {k : K}
    (h : ∀ p ∈ l, p.1 ≠ k) : entryAt l k = none := by
  rw [entryAt, List.find?_eq_none.mpr]
  · rfl
  · intro x hx
    simp [h x hx]

theorem entryAt_singleton (p : K × V) (k : K) :
    entryAt [p] k = if p.1 = k then some p.2 else none := by
  rw [entryAt]
  by_cases h : p.1 = k <;> simp [List.find?, h]

/-- After an `assign` on a non-empty sorted table, the boundary stored at
`keyEnd` is exactly the old lookup value at `keyEnd` when that differs from
`val`, and is absent otherwise. -/
theorem entryAt_assign_end {m : interval_map K V} {b e : K} {v : V}
    (hs : SortedKeys m.m_map) (hne : m.m_map ≠ []) (hbe : b < e) :
    entryAt (assign m b e v).m_map e =
      if lookupL m.m_valBegin m.m_map e = v then none
      else some (lookupL m.m_valBegin m.m_map e) := by
  rw [assign_normal hs hne hbe, List.append_assoc, List.append_assoc,
    entryAt_append, entryAt_append, entryAt_append]
  rw [entryAt_eq_none fun p hp =>
    ne_of_lt ((mem_take_lowerBound hp).trans hbe)]
  rw [entryAt_eq_none (l := m.m_map.drop (upperBound m.m_map e))
    fun p hp => (ne_of_lt (mem_drop_upperBound hs hp)).symm]
  have h1 : entryAt (if prevBelow m.m_valBegin m.m_map b = v
      then ([] : List (K × V)) else [(b, v)]) e = none := by
    split
    · rfl
    · exact entryAt_eq_none fun p hp => by
        rcases List.mem_singleton.mp hp with rfl
        exact ne_of_lt hbe
  rw [h1]
  by_cases hend : lookupL m.m_valBegin m.m_map e = v
  · rw [if_pos hend, if_pos hend]
    rfl
  · rw [if_neg hend, if_neg hend, entryAt_singleton]
    simp

/-- After an `assign` on a non-empty sorted table, a boundary is stored at
`keyBegin` carrying `val` exactly when the value applying just below
`keyBegin` differs from `val`. -/
theorem entryAt_assign_begin {m : interval_map K V} {b e : K} {v : V}
    (hs : SortedKeys m.m_map) (hne : m.m_map ≠ []) (hbe : b < e) :
    entryAt (assign m b e v).m_map b =
      if prevBelow m.m_valBegin m.m_map b = v then none else some v := by
  rw [assign_normal hs hne hbe, List.append_assoc, List.append_assoc,
    entryAt_append, entryAt_append, entryAt_append]
  rw [entryAt_eq_none fun p hp => ne_of_lt (mem_take_lowerBound hp)]
  rw [entryAt_eq_none (l := m.m_map.drop (upperBound m.m_map e))
    fun p hp => (ne_of_lt (hbe.trans (mem_drop_upperBound hs hp))).symm]
  have h2 : entryAt (if lookupL m.m_valBegin m.m_map e = v
      then ([] : List (K × V))
      else [(e, lookupL m.m_valBegin m.m_map e)]) b = none := by
    split
    · rfl
    · exact entryAt_eq_none fun p hp => by
        rcases List.mem_singleton.mp hp with rfl
        exact (ne_of_lt hbe).symm
  rw [h2]
  by_cases hbeg : prevBelow m.m_valBegin m.m_map b = v
  · rw [if_pos hbeg, if_pos hbeg]
    rfl
  · rw [if_neg hbeg, if_neg hbeg, entryAt_singleton]
    simp

/-- `lookupL` returns the value of the greatest boundary `≤ k`, or the
default when every boundary exceeds `k`. -/
theorem lookupL_greatest {vb : V} {l : List (K × V)} (hs : SortedKeys l)
    (k : K) :
    (∃ p, p ∈ l ∧ p.1 ≤ k ∧ (∀ q ∈ l, q.1 ≤ k → q.1 ≤ p.1) ∧
      lookupL vb l k = p.2) ∨
    ((∀ q ∈ l, k < q.1) ∧ lookupL vb l k = vb) := by
  induction l generalizing vb with
  | nil => exact Or.inr ⟨by simp, rfl⟩
  | cons p rest ih =>
    by_cases hk : k < p.1
    · refine Or.inr ⟨?_, by simp [lookupL, hk]⟩
      intro q hq
      rcases List.mem_cons.mp hq with rfl | hq
      · exact hk
      · exact hk.trans ((List.pairwise_cons.mp hs).1 q hq)
    · have hpk : p.1 ≤ k := not_lt.mp hk
      rcases @ih p.2 (List.pairwise_cons.mp hs).2 with
        ⟨q, hq, hqk, hmax, hval⟩ | ⟨hall, hval⟩
      · refine Or.inl ⟨q, List.mem_cons_of_mem p hq, hqk, ?_,
          by simp [lookupL, hk, hval]⟩
        intro r hr hrk
        rcases List.mem_cons.mp hr with rfl | hr
        · exact le_of_lt ((List.pairwise_cons.mp hs).1 q hq)
        · exact hmax r hr hrk
      · refine Or.inl ⟨p, List.mem_cons_self p rest, hpk, ?_,
          by simp [lookupL, hk, hval]⟩
        intro r hr hrk
        rcases List.mem_cons.mp hr with rfl | hr
        · exact le_refl _
        · exact absurd hrk (not_le.mpr (hall r hr))

/-! ### Invariants along traces of `assign` calls -/

theorem applyOps_valBegin (m : interval_map K V) (ops : List (K × K × V)) :
    (applyOps m ops).m_valBegin = m.m_valBegin := by
  induction ops generalizing m with
  | nil => rfl
  | cons op rest ih =>
    exact (ih (assign m op.1 op.2.1 op.2.2)).trans
      (assign_valBegin m op.1 op.2.1 op.2.2)

theorem safeOps_invariant {m : interval_map K V} {ops : List (K × K × V)}
    (hs : SortedKeys m.m_map) (hc : CanonicalMap m.m_valBegin m.m_map)
    (hsafe : safeOps m ops = true) :
    SortedKeys (applyOps m ops).m_map ∧
      CanonicalMap (applyOps m ops).m_valBegin (applyOps m ops).m_map := by
  induction ops generalizing m with
  | nil => exact ⟨hs, hc⟩
  | cons op rest ih =>
    obtain ⟨b, e, v⟩ := op
    rw [safeOps, Bool.and_eq_true, Bool.not_eq_true'] at hsafe
    have hcond : m.m_map = [] → b < e → v ≠ m.m_valBegin := by
      intro hE hbe hv
      have hE' : m.m_map.isEmpty = true := by rw [hE]; rfl
      rw [hE', decide_eq_true hbe, decide_eq_true hv] at hsafe
      simp at hsafe
    have hs2 := sortedKeys_assign hs b e v
    have hc2 : CanonicalMap (assign m b e v).m_valBegin
        (assign m b e v).m_map := by
      rw [assign_valBegin]
      exact canonical_assign hs hc hcond
    exact ih hs2 hc2 hsafe.2

/-- The demonstration table used by several witnesses below. -/
theorem demoMap_sorted :
    SortedKeys ([(5, 'B'), (10, 'A')] : List (Int × Char)) :=
  List.Pairwise.cons (by decide)
    (List.Pairwise.cons (by decide) List.Pairwise.nil)

theorem demoMap_canonical :
    CanonicalMap 'A' ([(5, 'B'), (10, 'A')] : List (Int × Char)) :=
  List.Chain.cons (by decide) (List.Chain.cons (by decide) List.Chain.nil)

/-! ### Claim theorems -/

/-- C1: for every well-formed call `assign(begin, end, value)` with
`begin < end` on a sorted table, and for every key `k`: afterwards
`lookup(k) = value` if `begin ≤ k < end`, and `lookup(k)` equals its
pre-call value for every `k` outside `[begin, end)`. -/
theorem assign_range_lookup (m : interval_map K V) (b e : K) (v : V)
    (hs : SortedKeys m.m_map) (hbe : b < e) (k : K) :
    lookup (assign m b e v) k = if b ≤ k ∧ k < e then v else lookup m k := by
  rw [lookup_eq_lookupL, lookup_eq_lookupL, assign_valBegin]
  exact lookupL_assign hs hbe k

theorem assign_range_lookup_witness :
    SortedKeys (mkIntervalMap 'A' : interval_map Int Char).m_map ∧
      (5 : Int) < 10 ∧
      lookup (assign (mkIntervalMap 'A' : interval_map Int Char) 5 10 'B') 7 =
        (if (5 : Int) ≤ 7 ∧ (7 : Int) < 10 then 'B'
         else lookup (mkIntervalMap 'A' : interval_map Int Char) 7) :=
  ⟨List.Pairwise.nil, by decide,
    assign_range_lookup (mkIntervalMap 'A') 5 10 'B' List.Pairwise.nil
      (by decide) 7⟩

/-- C2 counterexample: a single `assign(0, 1, 'A')` on the freshly
constructed map with default `'A'` stores the table `[(0,'A'), (1,'A')]`,
whose first boundary carries the default value and whose two consecutive
boundaries carry equal values -- the claimed invariant fails. -/
theorem assign_default_on_empty_breaks_invariant :
    ¬ CanonicalMap 'A'
      (applyOps (mkIntervalMap 'A' : interval_map Int Char)
        [(0, 1, 'A')]).m_map := by
  intro h
  have hmap : (applyOps (mkIntervalMap 'A' : interval_map Int Char)
      [(0, 1, 'A')]).m_map = [((0 : Int), 'A'), ((1 : Int), 'A')] := by decide
  rw [hmap, CanonicalMap] at h
  simp only [List.map_cons, List.map_nil] at h
  rw [List.chain'_cons] at h
  exact h.1 rfl

/-- C2 (amended): after any sequence of `assign` calls starting from a
freshly constructed map, in which no call with `begin < end` is made while
the table is empty with value equal to the default, no two consecutive
stored boundaries carry equal values and the first stored boundary (if any)
never carries a value equal to the default. -/
theorem safe_traces_canonical (vb : V) (ops : List (K × K × V))
    (h : safeOps (mkIntervalMap vb) ops = true) :
    CanonicalMap vb (applyOps (mkIntervalMap vb) ops).m_map := by
  have h0s : SortedKeys (mkIntervalMap vb : interval_map K V).m_map :=
    List.Pairwise.nil
  have h0c : CanonicalMap (mkIntervalMap vb : interval_map K V).m_valBegin
      (mkIntervalMap vb : interval_map K V).m_map := List.chain'_singleton vb
  have hinv := safeOps_invariant h0s h0c h
  have h2 := hinv.2
  rw [applyOps_valBegin] at h2
  exact h2

theorem safe_traces_canonical_witness :
    safeOps (mkIntervalMap 'A' : interval_map Int Char)
        [(0, 1, 'B'), (5, 7, 'C')] = true ∧
      CanonicalMap 'A'
        (applyOps (mkIntervalMap 'A' : interval_map Int Char)
          [(0, 1, 'B'), (5, 7, 'C')]).m_map :=
  ⟨by decide, safe_traces_canonical 'A' [(0, 1, 'B'), (5, 7, 'C')] (by decide)⟩

/-- C3 counterexample: on the empty table every key of `[0, 1)` already maps
to the default `'A'`, yet `assign(0, 1, 'A')` grows the stored boundary
count from 0 to 2 -- the redundant assign is not a no-op. -/
theorem redundant_assign_grows_empty_table :
    (∀ k : Int, 0 ≤ k → k < 1 →
        lookup (mkIntervalMap 'A' : interval_map Int Char) k = 'A') ∧
      (mkIntervalMap 'A' : interval_map Int Char).m_map.length = 0 ∧
      ((assign (mkIntervalMap 'A' : interval_map Int Char) 0 1 'A').m_map).length
        = 2 :=
  ⟨fun _ _ _ => rfl, rfl, by decide⟩

/-- C3 (amended): on a non-empty table satisfying the representation
invariants, calling `assign` with a value that already applies on the whole
of `[begin, end)` is a true no-op on the internal representation (hence it
never increases the stored boundary count).  On an empty table the same
redundant call inserts two entries. -/
theorem assign_matching_value_noop (m : interval_map K V) (b e : K) (v : V)
    (hs : SortedKeys m.m_map) (hc : CanonicalMap m.m_valBegin m.m_map)
    (hne : m.m_map ≠ []) (hmatch : ∀ k, b ≤ k → k < e → lookup m k = v) :
    assign m b e v = m :=
  assign_noop hs hc hne hmatch

theorem assign_matching_value_noop_witness :
    (SortedKeys ([(5, 'B'), (10, 'A')] : List (Int × Char)) ∧
      CanonicalMap 'A' ([(5, 'B'), (10, 'A')] : List (Int × Char)) ∧
      ([(5, 'B'), (10, 'A')] : List (Int × Char)) ≠ [] ∧
      (∀ k : Int, 6 ≤ k → k < 9 →
        lookup (⟨'A', [(5, 'B'), (10, 'A')]⟩ : interval_map Int Char) k =
          'B')) ∧
      assign (⟨'A', [(5, 'B'), (10, 'A')]⟩ : interval_map Int Char) 6 9 'B' =
        ⟨'A', [(5, 'B'), (10, 'A')]⟩ := by
  have hmatch : ∀ k : Int, 6 ≤ k → k < 9 →
      lookup (⟨'A', [(5, 'B'), (10, 'A')]⟩ : interval_map Int Char) k =
        'B' := by
    intro k h1 h2
    have hk5 : ¬ k < 5 := by omega
    have hk10 : k < 10 := by omega
    simp [lookup, upperBound, valueAt, hk5, hk10]
  exact ⟨⟨demoMap_sorted, demoMap_canonical, by decide, hmatch⟩,
    assign_matching_value_noop _ 6 9 'B' demoMap_sorted demoMap_canonical
      (by decide) hmatch⟩

/-- C4: for every `begin`, `end` with `¬(begin < end)` and every value,
`assign` does nothing: the whole state (boundary table and default value)
is unchanged, so every `lookup(k)` is unchanged, and no error is raised. -/
theorem assign_empty_range_noop (m : interval_map K V) (b e : K) (v : V)
    (h : ¬ b < e) :
    assign m b e v = m ∧ ∀ k, lookup (assign m b e v) k = lookup m k :=
  ⟨assign_no_range h, fun k => by rw [assign_no_range h]⟩

theorem assign_empty_range_noop_witness :
    ¬ ((3 : Int) < 3) ∧
      assign (mkIntervalMap 'A' : interval_map Int Char) 3 3 'Z' =
        mkIntervalMap 'A' :=
  ⟨by decide,
    (assign_empty_range_noop (mkIntervalMap 'A') 3 3 'Z' (by decide)).1⟩

/-- C5: on every sorted table, `lookup(k)` is a total function returning
the value paired with the greatest stored boundary key `≤ k`, or the
default value when no stored boundary key is `≤ k`. -/
theorem lookup_total_greatest (m : interval_map K V)
    (hs : SortedKeys m.m_map) (k : K) :
    (∃ p, p ∈ m.m_map ∧ p.1 ≤ k ∧
      (∀ q ∈ m.m_map, q.1 ≤ k → q.1 ≤ p.1) ∧ lookup m k = p.2) ∨
    ((∀ q ∈ m.m_map, k < q.1) ∧ lookup m k = m.m_valBegin) := by
  rw [lookup_eq_lookupL]
  exact lookupL_greatest hs k

theorem lookup_total_greatest_witness :
    SortedKeys ([(5, 'B'), (10, 'A')] : List (Int × Char)) ∧
      ((∃ p, p ∈ ([(5, 'B'), (10, 'A')] : List (Int × Char)) ∧ p.1 ≤ 7 ∧
        (∀ q ∈ ([(5, 'B'), (10, 'A')] : List (Int × Char)),
          q.1 ≤ 7 → q.1 ≤ p.1) ∧
        lookup (⟨'A', [(5, 'B'), (10, 'A')]⟩ : interval_map Int Char) 7 =
          p.2) ∨
      ((∀ q ∈ ([(5, 'B'), (10, 'A')] : List (Int × Char)), (7 : Int) < q.1) ∧
        lookup (⟨'A', [(5, 'B'), (10, 'A')]⟩ : interval_map Int Char) 7 =
          'A')) :=
  ⟨demoMap_sorted,
    lookup_total_greatest (⟨'A', [(5, 'B'), (10, 'A')]⟩ : interval_map
      Int Char) demoMap_sorted 7⟩

/-- C6: in every call `assign(begin, end, value)` with `begin < end` on a
non-empty sorted table, a boundary at `end` is present afterwards iff the
pre-call `lookup(end)` differs from `value`; when present it carries that
pre-call value. -/
theorem assign_end_boundary (m : interval_map K V) (b e : K) (v : V)
    (hs : SortedKeys m.m_map) (hne : m.m_map ≠ []) (hbe : b < e) :
    entryAt (assign m b e v).m_map e =
      if lookup m e = v then none else some (lookup m e) := by
  rw [lookup_eq_lookupL]
  exact entryAt_assign_end hs hne hbe

theorem assign_end_boundary_witness :
    (SortedKeys ([(5, 'B'), (10, 'A')] : List (Int × Char)) ∧
      ([(5, 'B'), (10, 'A')] : List (Int × Char)) ≠ [] ∧ (6 : Int) < 8) ∧
      entryAt (assign (⟨'A', [(5, 'B'), (10, 'A')]⟩ : interval_map Int Char)
          6 8 'C').m_map 8 =
        (if lookup (⟨'A', [(5, 'B'), (10, 'A')]⟩ : interval_map Int Char) 8 =
            'C' then none
         else some (lookup (⟨'A', [(5, 'B'), (10, 'A')]⟩ :
            interval_map Int Char) 8)) :=
  ⟨⟨demoMap_sorted, by decide, by decide⟩,
    assign_end_boundary (⟨'A', [(5, 'B'), (10, 'A')]⟩ : interval_map Int Char)
      6 8 'C' demoMap_sorted (by decide) (by decide)⟩

/-- C7: in every call `assign(begin, end, value)` with `begin < end` on a
non-empty sorted table, a boundary carrying `value` is stored at `begin`
iff the value applying immediately below `begin` (the greatest remaining
boundary below `begin`, or the default when none precedes it) differs from
`value`. -/
theorem assign_begin_boundary (m : interval_map K V) (b e : K) (v : V)
    (hs : SortedKeys m.m_map) (hne : m.m_map ≠ []) (hbe : b < e) :
    entryAt (assign m b e v).m_map b =
      if prevBelow m.m_valBegin m.m_map b = v then none else some v :=
  entryAt_assign_begin hs hne hbe

theorem assign_begin_boundary_witness :
    (SortedKeys ([(5, 'B'), (10, 'A')] : List (Int × Char)) ∧
      ([(5, 'B'), (10, 'A')] : List (Int × Char)) ≠ [] ∧ (6 : Int) < 8) ∧
      entryAt (assign (⟨'A', [(5, 'B'), (10, 'A')]⟩ : interval_map Int Char)
          6 8 'C').m_map 6 =
        (if prevBelow 'A' ([(5, 'B'), (10, 'A')] : List (Int × Char)) 6 = 'C'
         then none else some 'C') :=
  ⟨⟨demoMap_sorted, by decide, by decide⟩,
    assign_begin_boundary (⟨'A', [(5, 'B'), (10, 'A')]⟩ :
      interval_map Int Char) 6 8 'C' demoMap_sorted (by decide) (by decide)⟩

/-- C8: starting from default `'A'`, the five-step scenario of the test
produces exactly the lookups listed in the spec after each step, and the
final stored boundary table is exactly `{5:B, 7:C, 10:A, 12:D, 15:A}`. -/
theorem interval_map_test_scenario :
    (lookup (applyOps (mkIntervalMap 'A' : interval_map Int Char)
        [(5, 10, 'B')]) 4 = 'A' ∧
      lookup (applyOps (mkIntervalMap 'A' : interval_map Int Char)
        [(5, 10, 'B')]) 5 = 'B' ∧
      lookup (applyOps (mkIntervalMap 'A' : interval_map Int Char)
        [(5, 10, 'B')]) 9 = 'B' ∧
      lookup (applyOps (mkIntervalMap 'A' : interval_map Int Char)
        [(5, 10, 'B')]) 10 = 'A') ∧
    (lookup (applyOps (mkIntervalMap 'A' : interval_map Int Char)
        [(5, 10, 'B'), (7, 12, 'C')]) 6 = 'B' ∧
      lookup (applyOps (mkIntervalMap 'A' : interval_map Int Char)
        [(5, 10, 'B'), (7, 12, 'C')]) 7 = 'C' ∧
      lookup (applyOps (mkIntervalMap 'A' : interval_map Int Char)
        [(5, 10, 'B'), (7, 12, 'C')]) 11 = 'C' ∧
      lookup (applyOps (mkIntervalMap 'A' : interval_map Int Char)
        [(5, 10, 'B'), (7, 12, 'C')]) 12 = 'A') ∧
    (lookup (applyOps (mkIntervalMap 'A' : interval_map Int Char)
        [(5, 10, 'B'), (7, 12, 'C'), (12, 15, 'D')]) 12 = 'D' ∧
      lookup (applyOps (mkIntervalMap 'A' : interval_map Int Char)
        [(5, 10, 'B'), (7, 12, 'C'), (12, 15, 'D')]) 14 = 'D' ∧
      lookup (applyOps (mkIntervalMap 'A' : interval_map Int Char)
        [(5, 10, 'B'), (7, 12, 'C'), (12, 15, 'D')]) 15 = 'A') ∧
    (lookup (applyOps (mkIntervalMap 'A' : interval_map Int Char)
        [(5, 10, 'B'), (7, 12, 'C'), (12, 15, 'D'), (5, 7, 'B')]) 5 = 'B' ∧
      lookup (applyOps (mkIntervalMap 'A' : interval_map Int Char)
        [(5, 10, 'B'), (7, 12, 'C'), (12, 15, 'D'), (5, 7, 'B')]) 6 = 'B' ∧
      lookup (applyOps (mkIntervalMap 'A' : interval_map Int Char)
        [(5, 10, 'B'), (7, 12, 'C'), (12, 15, 'D'), (5, 7, 'B')]) 7 = 'C') ∧
    (applyOps (mkIntervalMap 'A' : interval_map Int Char)
        [(5, 10, 'B'), (7, 12, 'C'), (12, 15, 'D'), (5, 7, 'B'),
          (10, 12, 'A')]).m_map =
      [(5, 'B'), (7, 'C'), (10, 'A'), (12, 'D'), (15, 'A')] := by
  decide

/-- C9: `assign` never alters the default value, and `lookup` has no side
effects: viewed as a state transformer, `operator[]` returns the looked-up
value and the object unchanged. -/
theorem assign_preserves_default_lookup_const (m : interval_map K V)
    (b e : K) (v : V) (k : K) :
    (assign m b e v).m_valBegin = m.m_valBegin ∧
      lookupState m k = (lookup m k, m) :=
  ⟨assign_valBegin m b e v, rfl⟩

/-- C10: every `assign(begin, end, value)` with `begin < end` issued on an
empty table stores exactly the two entries `(begin, value)` and
`(end, default)`, unconditionally -- in particular also when `value` equals
the default value. -/
theorem assign_on_empty_table (m : interval_map K V) (b e : K) (v : V)
    (hm : m.m_map = []) (hbe : b < e) :
    (assign m b e v).m_map = [(b, v), (e, m.m_valBegin)] :=
  assign_empty hm hbe

theorem assign_on_empty_table_witness :
    (mkIntervalMap 'A' : interval_map Int Char).m_map = [] ∧ (0 : Int) < 1 ∧
      (assign (mkIntervalMap 'A' : interval_map Int Char) 0 1 'A').m_map =
        [(0, 'A'), (1, 'A')] :=
  ⟨rfl, by decide,
    assign_on_empty_table (mkIntervalMap 'A') 0 1 'A' rfl (by decide)⟩

end IntervalMapModel
